import Mathlib

/-!
# Verification of the changelog-digest core

Shallow embedding of the changelog generator: the git-log parser
(`parseGitLog`), the date-range reducer (`getDateRange`), the Claude
response parser (`parseClaudeResponse`) and the audience prompt
selection (`audienceGuidance`, `buildPrompt`), together with theorems
settling the specification claims about them.

Strings are modelled as `List Char`.  JavaScript built-ins used by the
source (`String.split`, `String.trim`, `Array.join`, `new Date(...)`,
`Date.toISOString`, `JSON.parse`, `JSON.stringify`, regex span
extraction) are modelled by executable Lean functions defined below.
-/

set_option maxHeartbeats 1000000

namespace Changelog

/-- Whitespace characters recognised by the trimming model (space, tab,
newline, carriage return). -/
def isSpaceB (c : Char) : Bool :=
  c = ' ' || c = '\t' || c = '\n' || c = '\r'

/-- Model of JavaScript `String.prototype.trim`: remove leading and
trailing whitespace. -/
def jsTrim (s : List Char) : List Char :=
  ((s.dropWhile isSpaceB).reverse.dropWhile isSpaceB).reverse

/-- Boolean test that `xs` is a prefix of `ys`. -/
def prefixB : List Char → List Char → Bool
  | [], _ => true
  | _ :: _, [] => false
  | x :: xs, y :: ys => if x = y then prefixB xs ys else false

/-- Boolean test that `xs` occurs as a contiguous substring of `ys`. -/
def hasInfixB (xs : List Char) : List Char → Bool
  | [] => xs.isEmpty
  | y :: ys => prefixB xs (y :: ys) || hasInfixB xs ys

/-- Prepend a character to the first piece of a split result. -/
def consHead (c : Char) : List (List Char) → List (List Char)
  | [] => [[c]]
  | r :: rs => (c :: r) :: rs

/-- Split a string on occurrences of the non-empty separator `a :: sep2`,
scanning left to right; models JavaScript `String.prototype.split` for a
non-empty separator. -/
def splitOnAux (a : Char) (sep2 : List Char) : List Char → List (List Char)
  | [] => [[]]
  | c :: rest =>
    if prefixB (a :: sep2) (c :: rest) then
      [] :: splitOnAux a sep2 (rest.drop sep2.length)
    else
      consHead c (splitOnAux a sep2 rest)
termination_by s => s.length
decreasing_by
  · simp only [List.length_drop, List.length_cons]
    omega
  · simp only [List.length_cons]
    omega

/-- Model of JavaScript `String.prototype.split` (separator first).  An
empty separator splits the string into its characters. -/
def jsSplit (sep s : List Char) : List (List Char) :=
  match sep with
  | [] => s.map (fun c => [c])
  | a :: sep2 => splitOnAux a sep2 s

/-- Model of `Array.prototype.join` with a separator: interleave the
separator between the pieces. -/
def interc (sep : List Char) : List (List Char) → List Char
  | [] => []
  | [x] => x
  | x :: xs => x ++ sep ++ interc sep xs

/-- Well-formedness of a piece `p` against a separator `sep`: `sep` has
no occurrence inside `p ++ sep` that starts strictly before the end of
`p`.  Under this condition left-to-right splitting recovers `p` exactly;
it implies in particular that `sep` does not occur inside `p`. -/
def noEarly (sep p : List Char) : Prop :=
  hasInfixB sep (p ++ sep).dropLast = false

instance (sep p : List Char) : Decidable (noEarly sep p) := by
  unfold noEarly; infer_instance

/-! ## The git-log parser (src/src/index.ts) -/

/-- Structured commit record (interface `CommitInfo` in types.ts);
`body` is `none` when the commit has no body text. -/
structure CommitInfo where
  hash : List Char
  date : List Char
  author : List Char
  message : List Char
  body : Option (List Char)
deriving DecidableEq, Repr

/-- Per-chunk step of `parseGitLog`: split the chunk on the field
separator; with at least four parts, destructure
`[hash, date, author, message, ...bodyParts]`, rejoin the body parts
with the field separator, trim every field, and turn an empty trimmed
body into an absent one; with fewer than four parts the chunk yields
no record. -/
def parseChunk (fieldSeparator chunk : List Char) : Option CommitInfo :=
  match jsSplit fieldSeparator chunk with
  | hash :: date :: author :: message :: bodyParts =>
    let body := jsTrim (interc fieldSeparator bodyParts)
    some { hash := jsTrim hash, date := jsTrim date, author := jsTrim author,
           message := jsTrim message,
           body := if body = [] then none else some body }
  | _ => none

/-- Model of `parseGitLog`: split the raw blob on the commit separator,
discard chunks that are empty or whitespace-only, and build one record
per remaining chunk that has at least four field-separated parts. -/
def parseGitLog (raw commitSeparator fieldSeparator : List Char) : List CommitInfo :=
  ((jsSplit commitSeparator raw).filter (fun c => !(jsTrim c).isEmpty)).filterMap
    (parseChunk fieldSeparator)

/-- The record a well-formed chunk with field parts `ps` should produce:
first four parts trimmed, remaining parts rejoined with the field
separator and trimmed as the body (absent when empty). -/
def mkRecord (fieldSeparator : List Char) (ps : List (List Char)) : CommitInfo :=
  let body := jsTrim (interc fieldSeparator (ps.drop 4))
  { hash := jsTrim (ps.getD 0 []), date := jsTrim (ps.getD 1 []),
    author := jsTrim (ps.getD 2 []), message := jsTrim (ps.getD 3 []),
    body := if body = [] then none else some body }

/-! ## Dates: models of `new Date(string)` and `toISOString` -/

def parseNDigits : Nat → Nat → List Char → Option (Nat × List Char)
  | 0, acc, s => some (acc, s)
  | _ + 1, _, [] => none
  | n + 1, acc, c :: s =>
    if c.isDigit then parseNDigits n (acc * 10 + (c.toNat - 48)) s else none

def isLeap (y : Int) : Bool :=
  (y % 4 == 0 && !(y % 100 == 0)) || y % 400 == 0

def daysInMonth (y : Int) (m : Nat) : Nat :=
  if m = 1 ∨ m = 3 ∨ m = 5 ∨ m = 7 ∨ m = 8 ∨ m = 10 ∨ m = 12 then 31
  else if m = 4 ∨ m = 6 ∨ m = 9 ∨ m = 11 then 30
  else if isLeap y then 29 else 28

/-- Days since the Unix epoch of a proleptic-Gregorian civil date. -/
def daysFromCivil (y : Int) (m d : Nat) : Int :=
  let yy : Int := if m ≤ 2 then y - 1 else y
  let era : Int := Int.fdiv yy 400
  let yoe : Int := yy - era * 400
  let mp : Int := (m : Int) + (if 2 < m then -3 else 9)
  let doy : Int := Int.fdiv (153 * mp + 2) 5 + (d : Int) - 1
  let doe : Int := yoe * 365 + Int.fdiv yoe 4 - Int.fdiv yoe 100 + doy
  era * 146097 + doe - 719468

/-- Civil date (year, month, day) of a day count since the Unix epoch. -/
def civilFromDays (z0 : Int) : Int × Nat × Nat :=
  let z := z0 + 719468
  let era := Int.fdiv z 146097
  let doe := z - era * 146097
  let yoe := Int.fdiv (doe - Int.fdiv doe 1460 + Int.fdiv doe 36524 - Int.fdiv doe 146096) 365
  let y := yoe + era * 400
  let doy := doe - (365 * yoe + Int.fdiv yoe 4 - Int.fdiv yoe 100)
  let mp := Int.fdiv (5 * doy + 2) 153
  let d := doy - Int.fdiv (153 * mp + 2) 5 + 1
  let m := mp + (if mp < 10 then 3 else -9)
  (y + (if m ≤ 2 then 1 else 0), m.toNat, d.toNat)

def padNum (width n : Nat) : List Char :=
  let ds := Nat.toDigits 10 n
  List.replicate (width - ds.length) '0' ++ ds

/-- Calendar-date part of `Date.prototype.toISOString` rendering (UTC),
as selected by `toISOString().split('T')[0]` in the source.  Years are
rendered with four digits (the 0..9999 range produced by in-scope
timestamps). -/
def toISODate (ms : Int) : List Char :=
  let day := Int.fdiv ms 86400000
  let c := civilFromDays day
  padNum 4 c.1.toNat ++ ['-'] ++ padNum 2 c.2.1 ++ ['-'] ++ padNum 2 c.2.2

/-- Parse a UTC offset suffix: `Z` or a sign followed by `HH:MM`. -/
def parseOffset : List Char → Option Int
  | ['Z'] => some 0
  | c :: rest =>
    if c = '+' ∨ c = '-' then
      match parseNDigits 2 0 rest with
      | some (oh, ':' :: rest2) =>
        match parseNDigits 2 0 rest2 with
        | some (om, []) =>
          if oh ≤ 23 ∧ om ≤ 59 then
            some ((if c = '-' then (-1 : Int) else 1) * (oh * 60 + om))
          else none
        | _ => none
      | _ => none
    else none
  | [] => none

/-- Model of `new Date(string).getTime()` restricted to the
environment-independent part of the ECMA-262 date-time string format:
`YYYY-MM-DD` (interpreted as UTC midnight), optionally followed by
`THH:MM`, `THH:MM:SS` or `THH:MM:SS.sss`, in each case with a required
UTC offset (`Z` or a signed `HH:MM`).  Date-times without an explicit
offset are interpreted by JavaScript in the host's local time zone, and
further lenient formats vary by engine; such inputs are outside the
model and map to `none` (an invalid date).  The git `%aI` dates the
program feeds to this function always carry an explicit offset.
Returns milliseconds since the Unix epoch. -/
def parseTimestamp (s : List Char) : Option Int :=
  match parseNDigits 4 0 s with
  | some (y, '-' :: r1) =>
    match parseNDigits 2 0 r1 with
    | some (mo, '-' :: r2) =>
      match parseNDigits 2 0 r2 with
      | some (d, rest) =>
        if 1 ≤ mo ∧ mo ≤ 12 ∧ 1 ≤ d ∧ d ≤ daysInMonth (y : Int) mo then
          match rest with
          | [] => some (daysFromCivil (y : Int) mo d * 86400000)
          | 'T' :: r3 =>
            match parseNDigits 2 0 r3 with
            | some (hh, ':' :: r4) =>
              match parseNDigits 2 0 r4 with
              | some (mi, r5) =>
                let secPart : Option (Nat × Nat × List Char) :=
                  match r5 with
                  | ':' :: r6 =>
                    match parseNDigits 2 0 r6 with
                    | some (ss, '.' :: r8) =>
                      match parseNDigits 3 0 r8 with
                      | some (ms3, r9) => some (ss, ms3, r9)
                      | none => none
                    | some (ss, r7) => some (ss, 0, r7)
                    | none => none
                  | _ => some (0, 0, r5)
                match secPart with
                | some (ss, ms3, r10) =>
                  match parseOffset r10 with
                  | some off =>
                    if hh ≤ 23 ∧ mi ≤ 59 ∧ ss ≤ 59 then
                      some (daysFromCivil (y : Int) mo d * 86400000
                        + (((hh * 3600 + mi * 60 + ss) * 1000 + ms3 : Nat) : Int)
                        - off * 60000)
                    else none
                  | none => none
                | none => none
              | _ => none
            | _ => none
          | _ => none
        else none
      | none => none
    | _ => none
  | _ => none

/-- Date range handed to rendering (interface `DateRange` in types.ts). -/
structure DateRange where
  start : List Char
  «end» : List Char
deriving DecidableEq, Repr

def nanStep (f : Int → Int → Int) (acc x : Option Int) : Option Int :=
  match acc, x with
  | some u, some v => some (f u v)
  | _, _ => none

/-- Model of `Math.min(...xs)` / `Math.max(...xs)` over a non-empty
argument list, where `none` models NaN (the time value of an invalid
date): any NaN argument makes the result NaN. -/
def nanFold (f : Int → Int → Int) : List (Option Int) → Option Int
  | [] => none
  | t :: ts => ts.foldl (nanStep f) t

/-- Model of `getDateRange` (src/src/index.ts).  `now` is the clock
instant used for `new Date()` when the commit list is empty.  An
unparseable date propagates as NaN through `Math.min`/`Math.max`, and
`toISOString` on an invalid date throws a RangeError, modelled as
`Except.error`. -/
def getDateRange (now : Int) (commits : List CommitInfo) : Except Unit DateRange :=
  if commits.isEmpty then
    Except.ok ⟨toISODate now, toISODate now⟩
  else
    match nanFold min (commits.map (fun c => parseTimestamp c.date)),
          nanFold max (commits.map (fun c => parseTimestamp c.date)) with
    | some o, some n => Except.ok ⟨toISODate o, toISODate n⟩
    | _, _ => Except.error ()

/-! ## JSON: model of `JSON.parse` and the Claude response parser -/

/-- The literal opening brace character. -/
def braceOpen : Char := Char.ofNat 123

/-- The literal closing brace character. -/
def braceClose : Char := Char.ofNat 125

/-- Parsed JSON value.  Numbers keep their source lexeme; their only
observable use in the program is truthiness, decided from the lexeme
(floating-point underflow of tiny nonzero literals is not modelled). -/
inductive JsonValue where
  | jnull
  | jbool (b : Bool)
  | jnum (lexeme : List Char)
  | jstr (s : List Char)
  | jarr (elems : List JsonValue)
  | jobj (members : List (List Char × JsonValue))

def jsonWsChar (c : Char) : Bool :=
  c = ' ' || c = '\t' || c = '\n' || c = '\r'

def skipWs (s : List Char) : List Char := s.dropWhile jsonWsChar

def hexVal (c : Char) : Option Nat :=
  if '0' ≤ c ∧ c ≤ '9' then some (c.toNat - 48)
  else if 'a' ≤ c ∧ c ≤ 'f' then some (c.toNat - 87)
  else if 'A' ≤ c ∧ c ≤ 'F' then some (c.toNat - 55)
  else none

/-- Parse the remainder of a JSON string literal (after the opening
quote), decoding escapes; returns the decoded characters and the rest of
the input.  Fuel bounds the recursion; callers supply enough.  Lone
UTF-16 surrogates from `u` escapes are approximated via `Char.ofNat`. -/
def parseJString : Nat → List Char → Option (List Char × List Char)
  | 0, _ => none
  | _ + 1, [] => none
  | fuel + 1, c :: rest =>
    if c = '"' then some ([], rest)
    else if c = '\\' then
      match rest with
      | [] => none
      | e :: rest2 =>
        let dec : Option (Char × List Char) :=
          if e = '"' then some ('"', rest2)
          else if e = '\\' then some ('\\', rest2)
          else if e = '/' then some ('/', rest2)
          else if e = 'b' then some (Char.ofNat 8, rest2)
          else if e = 'f' then some (Char.ofNat 12, rest2)
          else if e = 'n' then some ('\n', rest2)
          else if e = 'r' then some ('\r', rest2)
          else if e = 't' then some ('\t', rest2)
          else if e = 'u' then
            match rest2 with
            | h1 :: h2 :: h3 :: h4 :: rest3 =>
              match hexVal h1, hexVal h2, hexVal h3, hexVal h4 with
              | some v1, some v2, some v3, some v4 =>
                some (Char.ofNat (((v1 * 16 + v2) * 16 + v3) * 16 + v4), rest3)
              | _, _, _, _ => none
            | _ => none
          else none
        match dec with
        | some (ch, rest3) =>
          match parseJString fuel rest3 with
          | some (str, rem) => some (ch :: str, rem)
          | none => none
        | none => none
    else if c.toNat < 32 then none
    else
      match parseJString fuel rest with
      | some (str, rem) => some (c :: str, rem)
      | none => none

/-- Parse an optional exponent part, extending the number lexeme. -/
def parseExpPart (lex : List Char) : List Char → Option (List Char × List Char)
  | [] => some (lex, [])
  | e :: r =>
    if e = 'e' ∨ e = 'E' then
      let sgnR : List Char × List Char :=
        match r with
        | '+' :: rr => (['+'], rr)
        | '-' :: rr => (['-'], rr)
        | _ => ([], r)
      match sgnR.2 with
      | d :: _ =>
        if d.isDigit then
          some (lex ++ e :: sgnR.1 ++ sgnR.2.takeWhile Char.isDigit,
            sgnR.2.dropWhile Char.isDigit)
        else none
      | [] => none
    else some (lex, e :: r)

/-- Parse an optional fraction part then an optional exponent part. -/
def parseFracExp (lex : List Char) : List Char → Option (List Char × List Char)
  | '.' :: r =>
    match r with
    | d :: _ =>
      if d.isDigit then
        parseExpPart (lex ++ '.' :: r.takeWhile Char.isDigit) (r.dropWhile Char.isDigit)
      else none
    | [] => none
  | s => parseExpPart lex s

/-- Parse a JSON number, returning its lexeme and the rest. -/
def parseJNumber (s : List Char) : Option (List Char × List Char) :=
  let signR : List Char × List Char :=
    match s with
    | '-' :: r => (['-'], r)
    | _ => ([], s)
  match signR.2 with
  | [] => none
  | c :: r =>
    if c = '0' then parseFracExp (signR.1 ++ ['0']) r
    else if c.isDigit then
      parseFracExp (signR.1 ++ c :: r.takeWhile Char.isDigit) (r.dropWhile Char.isDigit)
    else none

mutual

/-- Parse one JSON value (leading whitespace already skipped). -/
def parseJValue : Nat → List Char → Option (JsonValue × List Char)
  | 0, _ => none
  | fuel + 1, s =>
    match s with
    | [] => none
    | c :: rest =>
      if c = 'n' then
        match rest with
        | 'u' :: 'l' :: 'l' :: r => some (JsonValue.jnull, r)
        | _ => none
      else if c = 't' then
        match rest with
        | 'r' :: 'u' :: 'e' :: r => some (JsonValue.jbool true, r)
        | _ => none
      else if c = 'f' then
        match rest with
        | 'a' :: 'l' :: 's' :: 'e' :: r => some (JsonValue.jbool false, r)
        | _ => none
      else if c = '"' then
        match parseJString (fuel + 1) rest with
        | some (str, r) => some (JsonValue.jstr str, r)
        | none => none
      else if c = '[' then parseJElements fuel (skipWs rest)
      else if c = braceOpen then parseJMembers fuel (skipWs rest)
      else if c = '-' ∨ c.isDigit then
        match parseJNumber s with
        | some (lex, r) => some (JsonValue.jnum lex, r)
        | none => none
      else none

/-- Parse array elements after `[` (whitespace skipped), including the
empty-array case. -/
def parseJElements : Nat → List Char → Option (JsonValue × List Char)
  | 0, _ => none
  | fuel + 1, s =>
    match s with
    | ']' :: r => some (JsonValue.jarr [], r)
    | _ =>
      match parseJItems fuel s with
      | some (vs, r) => some (JsonValue.jarr vs, r)
      | none => none

/-- Parse a comma-separated list of values terminated by `]`. -/
def parseJItems : Nat → List Char → Option (List JsonValue × List Char)
  | 0, _ => none
  | fuel + 1, s =>
    match parseJValue fuel s with
    | some (v, r) =>
      match skipWs r with
      | ',' :: r2 =>
        match parseJItems fuel (skipWs r2) with
        | some (vs, r3) => some (v :: vs, r3)
        | none => none
      | ']' :: r2 => some ([v], r2)
      | _ => none
    | none => none

/-- Parse object members after the opening brace (whitespace skipped),
including the empty-object case. -/
def parseJMembers : Nat → List Char → Option (JsonValue × List Char)
  | 0, _ => none
  | fuel + 1, s =>
    match s with
    | [] => none
    | c :: r =>
      if c = braceClose then some (JsonValue.jobj [], r)
      else
        match parseJPairs fuel s with
        | some (ps, r2) => some (JsonValue.jobj ps, r2)
        | none => none

/-- Parse a comma-separated list of string-keyed pairs terminated by the
closing brace. -/
def parseJPairs : Nat → List Char → Option (List (List Char × JsonValue) × List Char)
  | 0, _ => none
  | fuel + 1, s =>
    match s with
    | '"' :: r =>
      match parseJString (fuel + 1) r with
      | some (key, r2) =>
        match skipWs r2 with
        | ':' :: r3 =>
          match parseJValue fuel (skipWs r3) with
          | some (v, r4) =>
            match skipWs r4 with
            | ',' :: r5 =>
              match parseJPairs fuel (skipWs r5) with
              | some (ps, r6) => some ((key, v) :: ps, r6)
              | none => none
            | c :: r5 => if c = braceClose then some ([(key, v)], r5) else none
            | [] => none
          | none => none
        | _ => none
      | none => none
    | _ => none

end

/-- Model of `JSON.parse`: parse one value with surrounding whitespace;
leftover input or any malformation is a syntax error (`none`). -/
def jsonParse (s : List Char) : Option JsonValue :=
  match parseJValue (4 * s.length + 8) (skipWs s) with
  | some (v, rest) => if skipWs rest = [] then some v else none
  | none => none

/-- Model of the first match of the regex over the reply text used by
`parseClaudeResponse`: the span from the first opening brace to the last
closing brace, provided that closing brace comes later. -/
def extractJsonSpan (s : List Char) : Option (List Char) :=
  let fromBrace := s.dropWhile (fun c => !(c == braceOpen))
  let span := (fromBrace.reverse.dropWhile (fun c => !(c == braceClose))).reverse
  if span.isEmpty then none else some span

/-- The closed category set (`DigestSection.category` in types.ts). -/
inductive Category where
  | features
  | fixes
  | improvements
  | other
deriving DecidableEq, Repr

/-- One digest section.  `items` keeps the raw JSON value the source
stores in the `items` field (an array of strings when the service
honours the contract). -/
structure DigestSection where
  category : Category
  items : JsonValue

/-- The two failure modes of `parseClaudeResponse`: the explicitly
thrown `Could not parse Claude response as JSON` error when no brace
span exists, and the SyntaxError propagated from `JSON.parse` when the
span is not valid JSON. -/
inductive ClaudeParseError where
  | couldNotParse
  | syntaxError
deriving DecidableEq, Repr

/-- True when the number lexeme denotes zero (all mantissa digits 0). -/
def numLexemeZero (lex : List Char) : Bool :=
  (lex.takeWhile (fun c => !(c == 'e') && !(c == 'E'))).all
    (fun c => c == '0' || c == '-' || c == '+' || c == '.')

/-- JavaScript truthiness of a parsed JSON value. -/
def jsTruthy : JsonValue → Bool
  | JsonValue.jnull => false
  | JsonValue.jbool b => b
  | JsonValue.jnum lex => !(numLexemeZero lex)
  | JsonValue.jstr s => !s.isEmpty
  | JsonValue.jarr _ => true
  | JsonValue.jobj _ => true

/-- Own-property access `data[key]` on a parsed JSON value (`none` is
`undefined`; later duplicate keys overwrite earlier ones, so the last
binding wins; prototype-inherited names are not modelled). -/
def getProp (v : JsonValue) (key : List Char) : Option JsonValue :=
  match v with
  | JsonValue.jobj members =>
    (members.reverse.find? (fun kv => decide (kv.1 = key))).map (fun kv => kv.2)
  | _ => none

/-- Model of `data.key || []`: the property's value when present and
truthy, otherwise an empty array. -/
def jsItems (data : JsonValue) (key : List Char) : JsonValue :=
  match getProp data key with
  | some v => if jsTruthy v then v else JsonValue.jarr []
  | none => JsonValue.jarr []

def categoryKeys : List (List Char) :=
  ["features".data, "fixes".data, "improvements".data, "other".data]

/-- The four sections built from the parsed payload, in fixed order. -/
def buildSections (data : JsonValue) : List DigestSection :=
  [ ⟨Category.features, jsItems data ("features".data)⟩,
    ⟨Category.fixes, jsItems data ("fixes".data)⟩,
    ⟨Category.improvements, jsItems data ("improvements".data)⟩,
    ⟨Category.other, jsItems data ("other".data)⟩ ]

/-- Model of `parseClaudeResponse` (summarize.ts): locate the brace
span, parse it as JSON, and build the four sections with missing or
falsy categories defaulted to empty arrays. -/
def parseClaudeResponse (text : List Char) : Except ClaudeParseError (List DigestSection) :=
  match extractJsonSpan text with
  | none => Except.error ClaudeParseError.couldNotParse
  | some span =>
    match jsonParse span with
    | none => Except.error ClaudeParseError.syntaxError
    | some data => Except.ok (buildSections data)

/-! ## Audience prompts and request building (summarize.ts) -/

def AUDIENCE_PROMPTS : List (List Char × List Char) :=
  [ ("general".data, "Write for a general business audience.".data),
    ("sales".data,
      "Write for a sales team. Emphasize customer-facing features and competitive advantages.".data),
    ("ops".data,
      "Write for an operations team. Emphasize reliability, performance, and process improvements.".data),
    ("cx".data,
      "Write for a customer experience team. Emphasize user-facing changes and support-related fixes.".data) ]

/-- Own-property stage of the bracket access on the `AUDIENCE_PROMPTS`
object literal; when it misses, the access continues on the prototype
chain (see `audienceGuidance`). -/
def recordGet (m : List (List Char × List Char)) (k : List Char) : Option (List Char) :=
  (m.find? (fun kv => decide (kv.1 = k))).map (fun kv => kv.2)

/-- The property names every plain object literal inherits from
`Object.prototype` (its standard function-valued data properties, the
Annex-B accessor pairs, and the `__proto__` accessor).  Bracket access
with one of these keys finds the inherited member — a function, or the
prototype object itself for `__proto__` — which is truthy. -/
def objectPrototypeMembers : List (List Char) :=
  ["constructor".data, "hasOwnProperty".data, "isPrototypeOf".data,
   "propertyIsEnumerable".data, "toLocaleString".data, "toString".data,
   "valueOf".data, "__defineGetter__".data, "__defineSetter__".data,
   "__lookupGetter__".data, "__lookupSetter__".data, "__proto__".data]

/-- The JavaScript value of `AUDIENCE_PROMPTS[audience] ||
AUDIENCE_PROMPTS.general`: either one of the framing strings, or a
truthy member inherited from `Object.prototype` (a function or object,
never a framing string). -/
inductive GuidanceValue where
  | text (s : List Char)
  | inheritedMember (name : List Char)
deriving DecidableEq, Repr

/-- Model of `AUDIENCE_PROMPTS[audience] || AUDIENCE_PROMPTS.general`.
Bracket access finds an own property first; failing that it consults
the prototype chain, where an `Object.prototype` member name yields the
truthy inherited member, so the `||` fallback never fires for it; only
a genuinely absent (or falsy empty-string) value falls back to the
general framing. -/
def audienceGuidance (audience : List Char) : GuidanceValue :=
  match recordGet AUDIENCE_PROMPTS audience with
  | some s =>
    if s.isEmpty then
      GuidanceValue.text ((recordGet AUDIENCE_PROMPTS ("general".data)).getD [])
    else GuidanceValue.text s
  | none =>
    if audience ∈ objectPrototypeMembers then
      GuidanceValue.inheritedMember audience
    else
      GuidanceValue.text ((recordGet AUDIENCE_PROMPTS ("general".data)).getD [])

/-- The text the template literal interpolates for the guidance value:
a framing string is spliced verbatim; an inherited member is stringified
by the host (e.g. the source text of a native function), a rendering
that is engine-defined and therefore kept abstract as `hostStr`. -/
def guidanceText (hostStr : List Char → List Char) : GuidanceValue → List Char
  | GuidanceValue.text s => s
  | GuidanceValue.inheritedMember name => hostStr name

/-- The default value of the `audience` parameter of `summarizeCommits`
(used when the selector is absent). -/
def defaultAudience : List Char := "general".data

def hexDigitChar (n : Nat) : Char :=
  if n < 10 then Char.ofNat (48 + n) else Char.ofNat (87 + n)

/-- JSON string escaping as performed by `JSON.stringify`. -/
def jsonEscapeChar (c : Char) : List Char :=
  if c = '"' then ['\\', '"']
  else if c = '\\' then ['\\', '\\']
  else if c = '\n' then ['\\', 'n']
  else if c = '\r' then ['\\', 'r']
  else if c = '\t' then ['\\', 't']
  else if c = Char.ofNat 8 then ['\\', 'b']
  else if c = Char.ofNat 12 then ['\\', 'f']
  else if c.toNat < 32 then
    ['\\', 'u', '0', '0', hexDigitChar (c.toNat / 16), hexDigitChar (c.toNat % 16)]
  else [c]

def jsonQuote (s : List Char) : List Char :=
  ('"' :: (s.map jsonEscapeChar).flatten) ++ ['"']

def stringifyField (name value : List Char) : List Char :=
  "    ".data ++ jsonQuote name ++ ": ".data ++ jsonQuote value

/-- One commit record as rendered by `JSON.stringify(commits, null, 2)`:
two-space indentation, fields in declaration order, and the `body`
property omitted when it is `undefined`. -/
def stringifyCommit (c : CommitInfo) : List Char :=
  let fields :=
    [stringifyField ("hash".data) c.hash, stringifyField ("date".data) c.date,
     stringifyField ("author".data) c.author,
     stringifyField ("message".data) c.message]
    ++ (match c.body with
        | some b => [stringifyField ("body".data) b]
        | none => [])
  ("  ".data ++ [braceOpen] ++ "\n".data) ++ interc (",\n".data) fields
    ++ ("\n  ".data ++ [braceClose])

/-- Model of `JSON.stringify(commits, null, 2)` for the commits array. -/
def stringifyCommits (commits : List CommitInfo) : List Char :=
  match commits with
  | [] => "[]".data
  | _ => "[\n".data ++ interc (",\n".data) (commits.map stringifyCommit) ++ "\n]".data

/-- The prompt template text before the audience guidance. -/
def promptHeader : List Char :=
  ("You are a technical writer who translates git commits into plain English for non-technical teams.\n\nGiven these git commits, create a summary with these sections:\n- features: New Features (things users can now do)\n- fixes: Bug Fixes (problems that were solved)\n- improvements: Improvements (things that work better)\n- other: Other Changes (internal/technical updates)\n\nRules:\n- Write for someone who doesn\x27t code\n- Focus on user/business impact, not technical details\n- Keep each item to 1-2 sentences\n- Skip merge commits and version bumps\n- If a commit is unclear, summarize what you can infer\n- ").data

/-- The prompt template text between the audience guidance and the
serialized commits. -/
def promptAfterGuidance : List Char :=
  ("\n\nRespond ONLY with valid JSON in this exact format:\n\x7b\n  \"features\": [\"item 1\", \"item 2\"],\n  \"fixes\": [\"item 1\"],\n  \"improvements\": [\"item 1\"],\n  \"other\": [\"item 1\"]\n\x7d\n\nIf a category has no items, use an empty array.\n\nCommits:\n").data

/-- The full instruction prompt built by `summarizeCommits`; `hostStr`
is the host's stringification of an inherited prototype member, used
only when the guidance value is not a framing string. -/
def buildPrompt (hostStr : List Char → List Char) (commits : List CommitInfo)
    (audience : List Char) : List Char :=
  promptHeader ++ guidanceText hostStr (audienceGuidance audience)
    ++ promptAfterGuidance ++ stringifyCommits commits

/-! ## Basic lemmas about the string primitives -/

theorem prefixB_iff_ex (xs : List Char) :
    ∀ ys, prefixB xs ys = true ↔ ∃ t, ys = xs ++ t := by
  induction xs with
  | nil => intro ys; simp [prefixB]
  | cons x xs ih =>
    intro ys
    cases ys with
    | nil => simp [prefixB]
    | cons y ys =>
      simp only [prefixB, List.cons_append, List.cons.injEq]
      by_cases hxy : x = y
      · subst hxy
        simp [ih ys]
      · simp [if_neg hxy, (Ne.symm hxy)]

theorem hasInfixB_iff_ex (xs : List Char) :
    ∀ ys, hasInfixB xs ys = true ↔ ∃ s t, ys = s ++ xs ++ t := by
  intro ys
  induction ys with
  | nil =>
    simp only [hasInfixB, List.isEmpty_iff]
    constructor
    · rintro rfl; exact ⟨[], [], rfl⟩
    · rintro ⟨s, t, h⟩
      rcases List.append_eq_nil.mp h.symm with ⟨h1, h2⟩
      exact (List.append_eq_nil.mp h1).2
  | cons y ys ih =>
    simp only [hasInfixB, Bool.or_eq_true, prefixB_iff_ex, ih]
    constructor
    · rintro (⟨t, ht⟩ | ⟨s, t, ht⟩)
      · exact ⟨[], t, by simpa using ht⟩
      · exact ⟨y :: s, t, by simp [ht]⟩
    · rintro ⟨s, t, ht⟩
      cases s with
      | nil => exact Or.inl ⟨t, by simpa using ht⟩
      | cons a s =>
        simp only [List.cons_append, List.cons.injEq] at ht
        exact Or.inr ⟨s, t, ht.2⟩

theorem dropLast_append_ne (s : List Char) :
    ∀ t : List Char, t ≠ [] → (s ++ t).dropLast = s ++ t.dropLast := by
  induction s with
  | nil => intro t _; simp
  | cons c s ih =>
    intro t ht
    have hne : s ++ t ≠ [] := by
      intro h
      exact ht (List.append_eq_nil.mp h).2
    rw [List.cons_append, List.dropLast_cons_of_ne_nil hne, ih t ht, List.cons_append]

theorem splitOnAux_ne_nil (a : Char) (sep2 : List Char) :
    ∀ s, splitOnAux a sep2 s ≠ [] := by
  intro s
  induction s using splitOnAux.induct a sep2 with
  | case1 => simp [splitOnAux]
  | case2 c rest hpre ih =>
    rw [splitOnAux, if_pos hpre]
    simp
  | case3 c rest hpre ih =>
    rw [splitOnAux, if_neg hpre]
    cases h : splitOnAux a sep2 rest with
    | nil => exact absurd h ih
    | cons r rs => simp [consHead]

theorem interc_consHead (sep : List Char) (c : Char) (L : List (List Char))
    (hL : L ≠ []) : interc sep (consHead c L) = c :: interc sep L := by
  cases L with
  | nil => exact absurd rfl hL
  | cons r rs =>
    cases rs with
    | nil => simp [consHead, interc]
    | cons r2 rs2 => simp [consHead, interc]

/-- Joining the pieces of a split with the same separator restores the
original string (round-trip of `split` / `join`). -/
theorem interc_splitOnAux (a : Char) (sep2 : List Char) :
    ∀ s, interc (a :: sep2) (splitOnAux a sep2 s) = s := by
  intro s
  induction s using splitOnAux.induct a sep2 with
  | case1 => simp [splitOnAux, interc]
  | case2 c rest hpre ih =>
    rw [splitOnAux, if_pos hpre]
    obtain ⟨t, ht⟩ := (prefixB_iff_ex _ _).mp hpre
    have hL := splitOnAux_ne_nil a sep2 (rest.drop sep2.length)
    cases hsp : splitOnAux a sep2 (rest.drop sep2.length) with
    | nil => exact absurd hsp hL
    | cons r rs =>
      rw [hsp] at ih
      simp only [interc, List.nil_append]
      have hdrop : rest.drop sep2.length = t := by
        have := ht
        simp only [List.cons_append, List.cons.injEq] at this
        rw [this.2, List.drop_left]
      rw [ih]
      have : (c :: rest) = (a :: sep2) ++ t := ht
      simp only [List.cons_append, List.cons.injEq] at this
      rw [hdrop, this.2, ← this.1]
      simp
  | case3 c rest hpre ih =>
    rw [splitOnAux, if_neg hpre]
    rw [interc_consHead _ _ _ (splitOnAux_ne_nil a sep2 rest), ih]

/-- Round-trip of split and join at the `jsSplit` level. -/
theorem interc_jsSplit (sep : List Char) (hsep : sep ≠ []) (s : List Char) :
    interc sep (jsSplit sep s) = s := by
  cases sep with
  | nil => exact absurd rfl hsep
  | cons a sep2 => exact interc_splitOnAux a sep2 s

theorem noEarly_cons (sep : List Char) (hsep : sep ≠ []) (c : Char) (p : List Char)
    (h : noEarly sep (c :: p)) : noEarly sep p := by
  unfold noEarly at h ⊢
  cases hb : hasInfixB sep (p ++ sep).dropLast with
  | false => rfl
  | true =>
    exfalso
    obtain ⟨s, t, hst⟩ := (hasInfixB_iff_ex _ _).mp hb
    have hne : p ++ sep ≠ [] := fun hn => hsep (List.append_eq_nil.mp hn).2
    have heq : ((c :: p) ++ sep).dropLast = (c :: s) ++ sep ++ t := by
      rw [List.cons_append, List.dropLast_cons_of_ne_nil hne, hst]
      simp
    have htrue : hasInfixB sep ((c :: p) ++ sep).dropLast = true :=
      (hasInfixB_iff_ex sep _).mpr ⟨c :: s, t, heq⟩
    rw [h] at htrue
    simp at htrue

theorem noEarly_no_occ (sep : List Char) (hsep : sep ≠ []) (p : List Char)
    (h : noEarly sep p) : hasInfixB sep p = false := by
  unfold noEarly at h
  cases hb : hasInfixB sep p with
  | false => rfl
  | true =>
    exfalso
    obtain ⟨s, t, hst⟩ := (hasInfixB_iff_ex _ _).mp hb
    have hne : t ++ sep ≠ [] := fun hn => hsep (List.append_eq_nil.mp hn).2
    have heq : (p ++ sep).dropLast = s ++ sep ++ (t ++ sep).dropLast := by
      rw [hst, List.append_assoc (s ++ sep) t sep, dropLast_append_ne _ _ hne]
    have htrue := (hasInfixB_iff_ex sep _).mpr ⟨s, (t ++ sep).dropLast, heq⟩
    simp [h] at htrue

theorem prefixB_false_of_noEarly (sep : List Char) (c : Char)
    (p t : List Char) (h : noEarly sep (c :: p)) :
    prefixB sep ((c :: p) ++ sep ++ t) = false := by
  cases hb : prefixB sep ((c :: p) ++ sep ++ t) with
  | false => rfl
  | true =>
    exfalso
    obtain ⟨r, hr⟩ := (prefixB_iff_ex _ _).mp hb
    have hnle : sep.length ≤ ((c :: p) ++ sep).length := by
      simp only [List.length_append, List.length_cons]
      omega
    have htake : ((c :: p) ++ sep).take sep.length = sep := by
      have h1 : (((c :: p) ++ sep) ++ t).take sep.length = (sep ++ r).take sep.length := by
        rw [← hr]
      rw [List.take_append_of_le_length hnle, List.take_left] at h1
      exact h1
    have hXeq : (c :: p) ++ sep = sep ++ ((c :: p) ++ sep).drop sep.length := by
      conv_lhs => rw [← List.take_append_drop sep.length ((c :: p) ++ sep)]
      rw [htake]
    have hdne : ((c :: p) ++ sep).drop sep.length ≠ [] := by
      intro hn
      have := congrArg List.length hn
      simp only [List.length_drop, List.length_append, List.length_cons,
        List.length_nil] at this
      omega
    have heq : ((c :: p) ++ sep).dropLast
        = [] ++ sep ++ (((c :: p) ++ sep).drop sep.length).dropLast := by
      conv_lhs => rw [hXeq]
      rw [dropLast_append_ne _ _ hdne]
      simp
    have htrue : hasInfixB sep ((c :: p) ++ sep).dropLast = true :=
      (hasInfixB_iff_ex sep _).mpr ⟨[], _, heq⟩
    unfold noEarly at h
    rw [h] at htrue
    simp at htrue

/-- Splitting a separator followed by a tail yields an empty first piece. -/
theorem splitOnAux_sep (a : Char) (sep2 t : List Char) :
    splitOnAux a sep2 ((a :: sep2) ++ t) = [] :: splitOnAux a sep2 t := by
  rw [List.cons_append, splitOnAux]
  have hpre : prefixB (a :: sep2) (a :: (sep2 ++ t)) = true :=
    (prefixB_iff_ex _ _).mpr ⟨t, by simp⟩
  rw [if_pos hpre, List.drop_left]

/-- A piece that splits cleanly is recovered as the first piece of the
split, and scanning continues after the separator. -/
theorem splitOnAux_clean (a : Char) (sep2 : List Char) :
    ∀ p t, noEarly (a :: sep2) p →
      splitOnAux a sep2 (p ++ (a :: sep2) ++ t) = p :: splitOnAux a sep2 t := by
  intro p
  induction p with
  | nil =>
    intro t _
    simp only [List.nil_append]
    exact splitOnAux_sep a sep2 t
  | cons c p ih =>
    intro t hne
    have hpre := prefixB_false_of_noEarly (a :: sep2) c p t hne
    simp only [List.cons_append, List.append_assoc] at hpre
    have hih := ih t (noEarly_cons _ (by simp) c p hne)
    have hstep : splitOnAux a sep2 (c :: (p ++ (a :: sep2) ++ t))
        = consHead c (splitOnAux a sep2 (p ++ (a :: sep2) ++ t)) := by
      rw [splitOnAux, if_neg]
      simp [hpre]
    calc splitOnAux a sep2 ((c :: p) ++ (a :: sep2) ++ t)
        = splitOnAux a sep2 (c :: (p ++ (a :: sep2) ++ t)) := by
          simp only [List.cons_append, List.append_assoc]
      _ = consHead c (splitOnAux a sep2 (p ++ (a :: sep2) ++ t)) := hstep
      _ = consHead c (p :: splitOnAux a sep2 t) := by rw [hih]
      _ = (c :: p) :: splitOnAux a sep2 t := rfl

/-- Splitting a string with no occurrence of the separator yields the
string as the single piece. -/
theorem splitOnAux_no_occ (a : Char) (sep2 : List Char) :
    ∀ s, hasInfixB (a :: sep2) s = false → splitOnAux a sep2 s = [s] := by
  intro s
  induction s with
  | nil => intro _; rw [splitOnAux]
  | cons c rest ih =>
    intro h
    rw [hasInfixB] at h
    have h1 : prefixB (a :: sep2) (c :: rest) = false := by
      cases hp : prefixB (a :: sep2) (c :: rest) with
      | false => rfl
      | true => rw [hp] at h; simp at h
    have h2 : hasInfixB (a :: sep2) rest = false := by
      cases hp : hasInfixB (a :: sep2) rest with
      | false => rfl
      | true => rw [hp] at h; simp at h
    rw [splitOnAux, if_neg (by simp [h1]), ih h2]
    rfl

/-- Splitting the join of clean pieces recovers exactly the pieces. -/
theorem splitOnAux_interc (a : Char) (sep2 : List Char) :
    ∀ chunks : List (List Char), chunks ≠ [] →
      (∀ p ∈ chunks, noEarly (a :: sep2) p) →
      splitOnAux a sep2 (interc (a :: sep2) chunks) = chunks := by
  intro chunks
  induction chunks with
  | nil => intro h; exact absurd rfl h
  | cons p rest ih =>
    intro _ hall
    cases rest with
    | nil =>
      simp only [interc]
      exact splitOnAux_no_occ a sep2 p
        (noEarly_no_occ _ (by simp) p (hall p (by simp)))
    | cons q rest2 =>
      have hshape : interc (a :: sep2) (p :: q :: rest2)
          = p ++ (a :: sep2) ++ interc (a :: sep2) (q :: rest2) := rfl
      rw [hshape, splitOnAux_clean _ _ p _ (hall p (by simp)),
        ih (by simp) (fun x hx => hall x (by simp [hx]))]

/-- Splitting the join of clean pieces followed by a trailing separator
yields the pieces plus one final empty piece. -/
theorem splitOnAux_interc_trailing (a : Char) (sep2 : List Char) :
    ∀ chunks : List (List Char), chunks ≠ [] →
      (∀ p ∈ chunks, noEarly (a :: sep2) p) →
      splitOnAux a sep2 (interc (a :: sep2) chunks ++ (a :: sep2))
        = chunks ++ [[]] := by
  intro chunks
  induction chunks with
  | nil => intro h; exact absurd rfl h
  | cons p rest ih =>
    intro _ hall
    cases rest with
    | nil =>
      have hshape : interc (a :: sep2) [p] ++ (a :: sep2)
          = p ++ (a :: sep2) ++ [] := by simp [interc]
      rw [hshape, splitOnAux_clean _ _ p [] (hall p (by simp))]
      rw [splitOnAux]
      rfl
    | cons q rest2 =>
      have hshape : interc (a :: sep2) (p :: q :: rest2) ++ (a :: sep2)
          = p ++ (a :: sep2) ++ (interc (a :: sep2) (q :: rest2) ++ (a :: sep2)) := by
        simp [interc]
      rw [hshape, splitOnAux_clean _ _ p _ (hall p (by simp)),
        ih (by simp) (fun x hx => hall x (by simp [hx]))]
      rfl

theorem jsSplit_interc (sep : List Char) (hsep : sep ≠ []) (chunks : List (List Char))
    (hne : chunks ≠ []) (hall : ∀ p ∈ chunks, noEarly sep p) :
    jsSplit sep (interc sep chunks) = chunks := by
  cases sep with
  | nil => exact absurd rfl hsep
  | cons a sep2 => exact splitOnAux_interc a sep2 chunks hne hall

theorem jsSplit_interc_trailing (sep : List Char) (hsep : sep ≠ [])
    (chunks : List (List Char)) (hne : chunks ≠ [])
    (hall : ∀ p ∈ chunks, noEarly sep p) :
    jsSplit sep (interc sep chunks ++ sep) = chunks ++ [[]] := by
  cases sep with
  | nil => exact absurd rfl hsep
  | cons a sep2 => exact splitOnAux_interc_trailing a sep2 chunks hne hall

theorem jsSplit_clean (sep : List Char) (hsep : sep ≠ []) (p t : List Char)
    (hp : noEarly sep p) : jsSplit sep (p ++ sep ++ t) = p :: jsSplit sep t := by
  cases sep with
  | nil => exact absurd rfl hsep
  | cons a sep2 => exact splitOnAux_clean a sep2 p t hp

theorem jsSplit_no_occ (sep : List Char) (hsep : sep ≠ []) (s : List Char)
    (h : hasInfixB sep s = false) : jsSplit sep s = [s] := by
  cases sep with
  | nil => exact absurd rfl hsep
  | cons a sep2 => exact splitOnAux_no_occ a sep2 s h

/-! ## Lemmas about trimming and chunk parsing -/

theorem jsTrim_eq_nil_iff (l : List Char) :
    jsTrim l = [] ↔ ∀ c ∈ l, isSpaceB c = true := by
  unfold jsTrim
  rw [List.reverse_eq_nil_iff, List.dropWhile_eq_nil_iff]
  constructor
  · intro h c hc
    by_cases hmem : c ∈ l.dropWhile isSpaceB
    · exact h c (List.mem_reverse.mpr hmem)
    · have hc' : c ∈ l.takeWhile isSpaceB ++ l.dropWhile isSpaceB := by
        rw [List.takeWhile_append_dropWhile]
        exact hc
      rcases List.mem_append.mp hc' with h1 | h2
      · exact List.mem_takeWhile_imp h1
      · exact absurd h2 hmem
  · intro h c hc
    exact h c ((List.dropWhile_sublist isSpaceB).subset (List.mem_reverse.mp hc))

theorem jsTrim_append_ne_nil (s rest : List Char) (hne : jsTrim s ≠ []) :
    jsTrim (s ++ rest) ≠ [] := by
  intro hnil
  apply hne
  rw [jsTrim_eq_nil_iff] at hnil ⊢
  exact fun c hc => hnil c (List.mem_append.mpr (Or.inl hc))

theorem keep_of_ne_nil (s : List Char) (h : jsTrim s ≠ []) :
    (!(jsTrim s).isEmpty) = true := by
  cases hs : jsTrim s with
  | nil => exact absurd hs h
  | cons c cs => rfl

theorem exists_four_parts (ps : List (List Char)) (h : 4 ≤ ps.length) :
    ∃ p0 p1 p2 p3 rest, ps = p0 :: p1 :: p2 :: p3 :: rest :=
  match ps, h with
  | p0 :: p1 :: p2 :: p3 :: rest, _ => ⟨p0, p1, p2, p3, rest, rfl⟩
  | [], h => absurd h (by decide)
  | [x], h => absurd h (by simp)
  | [x, y], h => absurd h (by simp)
  | [x, y, z], h => absurd h (by simp)

theorem parseChunk_interc (fsep : List Char) (hfs : fsep ≠ [])
    (ps : List (List Char)) (hlen : 4 ≤ ps.length)
    (hall : ∀ p ∈ ps, noEarly fsep p) :
    parseChunk fsep (interc fsep ps) = some (mkRecord fsep ps) := by
  have hne : ps ≠ [] := by
    intro h
    rw [h] at hlen
    simp at hlen
  have hsplit := jsSplit_interc fsep hfs ps hne hall
  obtain ⟨p0, p1, p2, p3, rest, rfl⟩ := exists_four_parts ps hlen
  unfold parseChunk
  rw [hsplit]
  simp [mkRecord]

theorem filterMap_parseChunk (fsep : List Char) (hfs : fsep ≠ [])
    (records : List (List (List Char)))
    (hlen : ∀ ps ∈ records, 4 ≤ ps.length)
    (hall : ∀ ps ∈ records, ∀ p ∈ ps, noEarly fsep p) :
    (records.map (interc fsep)).filterMap (parseChunk fsep)
      = records.map (mkRecord fsep) := by
  induction records with
  | nil => rfl
  | cons ps rest ih =>
    simp only [List.map_cons, List.filterMap_cons,
      parseChunk_interc fsep hfs ps (hlen ps (by simp))
        (fun p hp => hall ps (by simp) p hp)]
    rw [ih (fun q hq => hlen q (by simp [hq])) (fun q hq => hall q (by simp [hq]))]

theorem filter_keeps_chunks (fsep : List Char)
    (records : List (List (List Char)))
    (hlen : ∀ ps ∈ records, 4 ≤ ps.length)
    (hfields : ∀ ps ∈ records, ∀ p ∈ ps.take 4, jsTrim p ≠ []) :
    (records.map (interc fsep)).filter (fun c => !(jsTrim c).isEmpty)
      = records.map (interc fsep) := by
  apply List.filter_eq_self.mpr
  intro chunk hc
  obtain ⟨ps, hps, rfl⟩ := List.mem_map.mp hc
  obtain ⟨p0, p1, p2, p3, rest, rfl⟩ := exists_four_parts ps (hlen ps hps)
  apply keep_of_ne_nil
  have h0 : jsTrim p0 ≠ [] := hfields _ hps p0 (by simp)
  have hshape : interc fsep (p0 :: p1 :: p2 :: p3 :: rest)
      = p0 ++ (fsep ++ interc fsep (p1 :: p2 :: p3 :: rest)) := by
    rw [show interc fsep (p0 :: p1 :: p2 :: p3 :: rest)
        = p0 ++ fsep ++ interc fsep (p1 :: p2 :: p3 :: rest) from rfl,
      List.append_assoc]
  rw [hshape]
  exact jsTrim_append_ne_nil p0 _ h0

/-! ## Lemmas about NaN-propagating folds -/

theorem foldl_nanStep_none (f : Int → Int → Int) :
    ∀ ts : List (Option Int), ts.foldl (nanStep f) none = none := by
  intro ts
  induction ts with
  | nil => rfl
  | cons x ts ih =>
    rw [List.foldl_cons, show nanStep f none x = none from rfl]
    exact ih

theorem foldl_nanStep_none_mem (f : Int → Int → Int) :
    ∀ ts : List (Option Int), ∀ t, none ∈ ts → ts.foldl (nanStep f) t = none := by
  intro ts
  induction ts with
  | nil => intro t h; simp at h
  | cons x ts ih =>
    intro t h
    rcases List.mem_cons.mp h with hx | hmem
    · rw [List.foldl_cons, ← hx, show nanStep f t none = none by cases t <;> rfl]
      exact foldl_nanStep_none f ts
    · rw [List.foldl_cons]
      exact ih _ hmem

theorem nanFold_none_mem (f : Int → Int → Int) (l : List (Option Int))
    (h : none ∈ l) : nanFold f l = none := by
  cases l with
  | nil => rfl
  | cons t ts =>
    rcases List.mem_cons.mp h with ht | hmem
    · rw [nanFold, ← ht]
      exact foldl_nanStep_none f ts
    · exact foldl_nanStep_none_mem f ts t hmem

theorem foldl_nanStep_some (f : Int → Int → Int) :
    ∀ ts : List (Option Int), ∀ t, t ≠ none → (∀ x ∈ ts, x ≠ none) →
      ∃ v, ts.foldl (nanStep f) t = some v := by
  intro ts
  induction ts with
  | nil =>
    intro t ht _
    cases t with
    | none => exact absurd rfl ht
    | some u => exact ⟨u, rfl⟩
  | cons x ts ih =>
    intro t ht hall
    rw [List.foldl_cons]
    apply ih
    · cases t with
      | none => exact absurd rfl ht
      | some u =>
        cases x with
        | none => exact absurd rfl (hall none (by simp))
        | some w => simp [nanStep]
    · exact fun y hy => hall y (by simp [hy])

theorem foldl_nanStep_sel (f : Int → Int → Int)
    (hsel : ∀ u v : Int, f u v = u ∨ f u v = v) :
    ∀ ts : List (Option Int), ∀ t v, ts.foldl (nanStep f) t = some v →
      some v = t ∨ some v ∈ ts := by
  intro ts
  induction ts with
  | nil => intro t v h; exact Or.inl h.symm
  | cons x ts ih =>
    intro t v h
    rw [List.foldl_cons] at h
    rcases ih (nanStep f t x) v h with h1 | h2
    · cases t with
      | none => rw [show nanStep f none x = none from rfl] at h1; cases h1
      | some u =>
        cases x with
        | none => rw [show nanStep f (some u) none = none from rfl] at h1; cases h1
        | some w =>
          rw [show nanStep f (some u) (some w) = some (f u w) from rfl] at h1
          cases h1
          rcases hsel u w with he | he
          · exact Or.inl (by rw [he])
          · exact Or.inr (by rw [he]; simp)
    · exact Or.inr (List.mem_cons_of_mem _ h2)

theorem foldl_nanStep_bound (f : Int → Int → Int) (R : Int → Int → Prop)
    (hRf : ∀ u v, R (f u v) u ∧ R (f u v) v)
    (hRtrans : ∀ a b c, R a b → R b c → R a c)
    (hRrefl : ∀ a, R a a) :
    ∀ ts : List (Option Int), ∀ t v, ts.foldl (nanStep f) t = some v →
      (∀ u, t = some u → R v u) ∧ (∀ u, some u ∈ ts → R v u) := by
  intro ts
  induction ts with
  | nil =>
    intro t v h
    refine ⟨?_, ?_⟩
    · intro u hu
      rw [hu] at h
      cases h
      exact hRrefl v
    · intro u hu; simp at hu
  | cons x ts ih =>
    intro t v h
    rw [List.foldl_cons] at h
    obtain ⟨h1, h2⟩ := ih (nanStep f t x) v h
    refine ⟨?_, ?_⟩
    · intro u hu
      cases x with
      | none =>
        rw [show nanStep f t none = none by cases t <;> rfl,
          foldl_nanStep_none] at h
        cases h
      | some w =>
        rw [hu] at h1
        have hv := h1 (f u w) (by rw [show nanStep f (some u) (some w) = some (f u w) from rfl])
        exact hRtrans v (f u w) u hv (hRf u w).1
    · intro u hu
      rcases List.mem_cons.mp hu with hx | hmem
      · cases t with
        | none =>
          rw [show nanStep f none x = none from rfl, foldl_nanStep_none] at h
          cases h
        | some tu =>
          rw [← hx] at h1
          have hv := h1 (f tu u) (by rw [show nanStep f (some tu) (some u) = some (f tu u) from rfl])
          exact hRtrans v (f tu u) u hv (hRf tu u).2
      · exact h2 u hmem

theorem nanFold_some (f : Int → Int → Int) (l : List (Option Int))
    (hne : l ≠ []) (hall : ∀ x ∈ l, x ≠ none) : ∃ v, nanFold f l = some v := by
  cases l with
  | nil => exact absurd rfl hne
  | cons t ts =>
    exact foldl_nanStep_some f ts t (hall t (by simp)) (fun x hx => hall x (by simp [hx]))

theorem nanFold_mem (f : Int → Int → Int)
    (hsel : ∀ u v : Int, f u v = u ∨ f u v = v)
    (l : List (Option Int)) (v : Int) (h : nanFold f l = some v) :
    some v ∈ l := by
  cases l with
  | nil => cases h
  | cons t ts =>
    rcases foldl_nanStep_sel f hsel ts t v h with h1 | h2
    · rw [← h1]; simp
    · exact List.mem_cons_of_mem _ h2

theorem nanFold_bound (f : Int → Int → Int) (R : Int → Int → Prop)
    (hRf : ∀ u v, R (f u v) u ∧ R (f u v) v)
    (hRtrans : ∀ a b c, R a b → R b c → R a c)
    (hRrefl : ∀ a, R a a)
    (l : List (Option Int)) (v : Int) (h : nanFold f l = some v) :
    ∀ u, some u ∈ l → R v u := by
  cases l with
  | nil => cases h
  | cons t ts =>
    obtain ⟨h1, h2⟩ := foldl_nanStep_bound f R hRf hRtrans hRrefl ts t v h
    intro u hu
    rcases List.mem_cons.mp hu with hx | hmem
    · exact h1 u hx.symm
    · exact h2 u hmem

/-! ## Claim theorems about getDateRange (C5, C7, C10) -/

/-- C5: `getDateRange` on the empty sequence returns the current
processing calendar date as both `start` and `end`; on every non-empty
sequence whose dates all parse, it returns the UTC calendar date of the
minimum instant as `start` and of the maximum instant as `end`,
independently of the order of the input records. -/
theorem getDateRange_spec (now : Int) (commits : List CommitInfo) (ts : List Int)
    (hne : commits ≠ [])
    (hts : commits.map (fun c => parseTimestamp c.date) = ts.map some) :
    (∃ m M, m ∈ ts ∧ M ∈ ts ∧ (∀ t ∈ ts, m ≤ t ∧ t ≤ M) ∧
      getDateRange now commits = Except.ok ⟨toISODate m, toISODate M⟩)
    ∧ (∀ commits2, commits.Perm commits2 →
        getDateRange now commits2 = getDateRange now commits)
    ∧ (∀ n : Int, getDateRange n [] = Except.ok ⟨toISODate n, toISODate n⟩) := by
  have hne' : commits.map (fun c => parseTimestamp c.date) ≠ [] := by
    intro h
    exact hne (List.map_eq_nil_iff.mp h)
  have hallsome : ∀ x ∈ commits.map (fun c => parseTimestamp c.date), x ≠ none := by
    rw [hts]
    intro x hx
    obtain ⟨t, _, rfl⟩ := List.mem_map.mp hx
    simp
  obtain ⟨m, hmin⟩ := nanFold_some min _ hne' hallsome
  obtain ⟨M, hmax⟩ := nanFold_some max _ hne' hallsome
  have hRmin := nanFold_bound min (fun a b => a ≤ b)
    (fun u v => ⟨min_le_left u v, min_le_right u v⟩)
    (fun _ _ _ hab hbc => le_trans hab hbc) (fun a => le_refl a) _ m hmin
  have hRmax := nanFold_bound max (fun a b => b ≤ a)
    (fun u v => ⟨le_max_left u v, le_max_right u v⟩)
    (fun _ _ _ hab hbc => le_trans hbc hab) (fun a => le_refl a) _ M hmax
  have hmmem : m ∈ ts := by
    have := nanFold_mem min (fun u v => min_choice u v) _ m hmin
    rw [hts] at this
    obtain ⟨t, ht, he⟩ := List.mem_map.mp this
    cases he
    exact ht
  have hMmem : M ∈ ts := by
    have := nanFold_mem max (fun u v => max_choice u v) _ M hmax
    rw [hts] at this
    obtain ⟨t, ht, he⟩ := List.mem_map.mp this
    cases he
    exact ht
  have hemp : ¬ (commits.isEmpty = true) := by
    cases commits with
    | nil => exact absurd rfl hne
    | cons c cs => simp
  refine ⟨⟨m, M, hmmem, hMmem, ?_, ?_⟩, ?_, fun n => rfl⟩
  · intro t ht
    have hmem : some t ∈ commits.map (fun c => parseTimestamp c.date) := by
      rw [hts]
      exact List.mem_map.mpr ⟨t, ht, rfl⟩
    exact ⟨hRmin t hmem, hRmax t hmem⟩
  · rw [getDateRange, if_neg hemp, hmin, hmax]
  · intro commits2 hperm
    have hne2 : commits2 ≠ [] := by
      intro h
      rw [h] at hperm
      exact hne hperm.eq_nil
    have hpermT : (commits.map (fun c => parseTimestamp c.date)).Perm
        (commits2.map (fun c => parseTimestamp c.date)) := hperm.map _
    have hne2' : commits2.map (fun c => parseTimestamp c.date) ≠ [] := by
      intro h
      exact hne2 (List.map_eq_nil_iff.mp h)
    have hallsome2 : ∀ x ∈ commits2.map (fun c => parseTimestamp c.date), x ≠ none :=
      fun x hx => hallsome x (hpermT.mem_iff.mpr hx)
    obtain ⟨m2, hmin2⟩ := nanFold_some min _ hne2' hallsome2
    obtain ⟨M2, hmax2⟩ := nanFold_some max _ hne2' hallsome2
    have hm2m : m2 = m := by
      have hb2 := nanFold_bound min (fun a b => a ≤ b)
        (fun u v => ⟨min_le_left u v, min_le_right u v⟩)
        (fun _ _ _ hab hbc => le_trans hab hbc) (fun a => le_refl a) _ m2 hmin2
      have hmem2 : some m2 ∈ commits.map (fun c => parseTimestamp c.date) :=
        hpermT.mem_iff.mpr (nanFold_mem min (fun u v => min_choice u v) _ m2 hmin2)
      have hmemm : some m ∈ commits2.map (fun c => parseTimestamp c.date) :=
        hpermT.mem_iff.mp (nanFold_mem min (fun u v => min_choice u v) _ m hmin)
      exact le_antisymm (hb2 m hmemm) (hRmin m2 hmem2)
    have hM2M : M2 = M := by
      have hb2 := nanFold_bound max (fun a b => b ≤ a)
        (fun u v => ⟨le_max_left u v, le_max_right u v⟩)
        (fun _ _ _ hab hbc => le_trans hbc hab) (fun a => le_refl a) _ M2 hmax2
      have hmem2 : some M2 ∈ commits.map (fun c => parseTimestamp c.date) :=
        hpermT.mem_iff.mpr (nanFold_mem max (fun u v => max_choice u v) _ M2 hmax2)
      have hmemM : some M ∈ commits2.map (fun c => parseTimestamp c.date) :=
        hpermT.mem_iff.mp (nanFold_mem max (fun u v => max_choice u v) _ M hmax)
      exact le_antisymm (hRmax M2 hmem2) (hb2 M hmemM)
    have hemp2 : ¬ (commits2.isEmpty = true) := by
      cases commits2 with
      | nil => exact absurd rfl hne2
      | cons c cs => simp
    rw [getDateRange, if_neg hemp2, hmin2, hmax2,
      getDateRange, if_neg hemp, hmin, hmax, hm2m, hM2M]

/-- C5 witness: commits dated 2024-01-20 and 2024-01-05 (out of order)
instantiate the specification with instants 1705708800000 and
1704412800000. -/
theorem getDateRange_spec_witness :
    (∃ m M, m ∈ [(1705708800000 : Int), 1704412800000]
      ∧ M ∈ [(1705708800000 : Int), 1704412800000]
      ∧ (∀ t ∈ [(1705708800000 : Int), 1704412800000], m ≤ t ∧ t ≤ M)
      ∧ getDateRange 0
          [⟨"a1".data, "2024-01-20".data, "bob".data, "m2".data, none⟩,
           ⟨"b2".data, "2024-01-05".data, "alice".data, "m1".data, none⟩]
          = Except.ok ⟨toISODate m, toISODate M⟩)
    ∧ (∀ commits2,
        ([⟨"a1".data, "2024-01-20".data, "bob".data, "m2".data, none⟩,
          ⟨"b2".data, "2024-01-05".data, "alice".data, "m1".data, none⟩]
          : List CommitInfo).Perm commits2 →
        getDateRange 0 commits2 = getDateRange 0
          [⟨"a1".data, "2024-01-20".data, "bob".data, "m2".data, none⟩,
           ⟨"b2".data, "2024-01-05".data, "alice".data, "m1".data, none⟩])
    ∧ (∀ n : Int, getDateRange n [] = Except.ok ⟨toISODate n, toISODate n⟩) :=
  getDateRange_spec 0
    [⟨"a1".data, "2024-01-20".data, "bob".data, "m2".data, none⟩,
     ⟨"b2".data, "2024-01-05".data, "alice".data, "m1".data, none⟩]
    [1705708800000, 1704412800000] (by simp) (by rfl)

/-- C7: when some commit's date fails to parse as a timestamp,
`getDateRange` surfaces an error to the caller (the NaN time value makes
`toISOString` throw) instead of returning a range. -/
theorem getDateRange_error_on_bad_date (now : Int) (commits : List CommitInfo)
    (hne : commits ≠ []) (hbad : ∃ c ∈ commits, parseTimestamp c.date = none) :
    getDateRange now commits = Except.error () := by
  obtain ⟨c, hc, hparse⟩ := hbad
  have hmem : (none : Option Int) ∈ commits.map (fun c => parseTimestamp c.date) := by
    rw [← hparse]
    exact List.mem_map_of_mem _ hc
  have hemp : ¬ (commits.isEmpty = true) := by
    cases commits with
    | nil => exact absurd rfl hne
    | cons c cs => simp
  rw [getDateRange, if_neg hemp, nanFold_none_mem min _ hmem]

/-- C7 witness: a single commit dated `not-a-date` produces the error. -/
theorem getDateRange_error_on_bad_date_witness :
    getDateRange 0 [⟨"h1".data, "not-a-date".data, "al".data, "m".data, none⟩]
      = Except.error () :=
  getDateRange_error_on_bad_date 0 _ (by simp)
    ⟨⟨"h1".data, "not-a-date".data, "al".data, "m".data, none⟩, by simp, rfl⟩

/-- C10: the rendered calendar dates come from the UTC rendering of the
instants: the newest commit, dated `2024-01-05T23:30:00-05:00` (whose
written calendar date is 2024-01-05), yields `end = "2024-01-06"`. -/
theorem getDateRange_utc_calendar :
    getDateRange 0
      [⟨"a1".data, "2024-01-04T10:00:00Z".data, "x".data, "m1".data, none⟩,
       ⟨"b2".data, "2024-01-05T23:30:00-05:00".data, "y".data, "m2".data, none⟩]
      = Except.ok ⟨"2024-01-04".data, "2024-01-06".data⟩
    ∧ List.take 10 ("2024-01-05T23:30:00-05:00".data) = "2024-01-05".data := by
  exact ⟨rfl, rfl⟩

/-! ## Claim theorems about parseClaudeResponse (C2, C3) -/

/-- C2: every successful result of `parseClaudeResponse` is exactly the
four sections built from the parsed payload, in the fixed order
features, fixes, improvements, other; a category key absent from the
payload yields an empty items array, a present array-valued category is
passed through in service order, and the sections depend only on the
four category keys (unknown extra keys are ignored). -/
theorem parseClaudeResponse_spec :
    (∀ text secs, parseClaudeResponse text = Except.ok secs →
      ∃ span data, extractJsonSpan text = some span ∧ jsonParse span = some data ∧
        secs = buildSections data)
    ∧ (∀ data, (buildSections data).map (fun s => s.category)
        = [Category.features, Category.fixes, Category.improvements, Category.other])
    ∧ (∀ data key, getProp data key = none → jsItems data key = JsonValue.jarr [])
    ∧ (∀ data key l, getProp data key = some (JsonValue.jarr l) →
        jsItems data key = JsonValue.jarr l)
    ∧ (∀ d1 d2, (∀ key ∈ categoryKeys, getProp d1 key = getProp d2 key) →
        buildSections d1 = buildSections d2) := by
  refine ⟨?_, fun data => rfl, ?_, ?_, ?_⟩
  · intro text secs h
    rw [parseClaudeResponse] at h
    cases hspan : extractJsonSpan text with
    | none => rw [hspan] at h; cases h
    | some span =>
      rw [hspan] at h
      have h2 : (match jsonParse span with
          | none => Except.error ClaudeParseError.syntaxError
          | some data => Except.ok (buildSections data)) = Except.ok secs := h
      cases hjson : jsonParse span with
      | none => rw [hjson] at h2; cases h2
      | some data =>
        rw [hjson] at h2
        cases h2
        exact ⟨span, data, rfl, hjson, rfl⟩
  · intro data key h
    rw [jsItems, h]
  · intro data key l h
    rw [jsItems, h]
    rfl
  · intro d1 d2 h
    have h1 := h ("features".data) (by simp [categoryKeys])
    have h2 := h ("fixes".data) (by simp [categoryKeys])
    have h3 := h ("improvements".data) (by simp [categoryKeys])
    have h4 := h ("other".data) (by simp [categoryKeys])
    rw [buildSections, buildSections, jsItems, jsItems, jsItems, jsItems,
      jsItems, jsItems, jsItems, jsItems, h1, h2, h3, h4]

/-- C2 witness: the reply `Here you go:` followed by a payload with only
`features` and `fixes` yields the four fixed sections with the two
missing categories defaulted to empty. -/
theorem parseClaudeResponse_spec_witness :
    ∃ span data,
      extractJsonSpan ("Here you go:\n\x7b\"features\":[\"A\"],\"fixes\":[]\x7d".data)
        = some span ∧
      jsonParse span = some data ∧
      ([⟨Category.features, JsonValue.jarr [JsonValue.jstr ("A".data)]⟩,
        ⟨Category.fixes, JsonValue.jarr []⟩,
        ⟨Category.improvements, JsonValue.jarr []⟩,
        ⟨Category.other, JsonValue.jarr []⟩] : List DigestSection)
        = buildSections data :=
  parseClaudeResponse_spec.1 _ _ (by rfl)

/-- C3 counterexample: a reply whose brace span exists but is not valid
JSON (`{x}`) makes `parseClaudeResponse` fail with the syntax error
propagated from `JSON.parse`, which is not the dedicated
unparseable-response error thrown on a missing span. -/
theorem parseClaudeResponse_error_kind_cex :
    parseClaudeResponse ("\x7bx\x7d".data) = Except.error ClaudeParseError.syntaxError
    ∧ ClaudeParseError.syntaxError ≠ ClaudeParseError.couldNotParse := by
  exact ⟨rfl, by decide⟩

/-- C3 (amended): with no brace span `parseClaudeResponse` fails with
the dedicated unparseable-response error; with a span that does not
parse as a valid mapping it fails with the JSON parser's syntax error;
in neither case is a defaulted result returned. -/
theorem parseClaudeResponse_error_paths :
    (∀ text, extractJsonSpan text = none →
      parseClaudeResponse text = Except.error ClaudeParseError.couldNotParse)
    ∧ (∀ text span, extractJsonSpan text = some span → jsonParse span = none →
      parseClaudeResponse text = Except.error ClaudeParseError.syntaxError)
    ∧ (∀ text e secs, parseClaudeResponse text = Except.error e →
        parseClaudeResponse text ≠ Except.ok secs) := by
  refine ⟨?_, ?_, ?_⟩
  · intro text h
    rw [parseClaudeResponse, h]
  · intro text span h hj
    have h2 : parseClaudeResponse text = (match jsonParse span with
        | none => Except.error ClaudeParseError.syntaxError
        | some data => Except.ok (buildSections data)) := by
      rw [parseClaudeResponse, h]
    rw [hj] at h2
    exact h2
  · intro text e secs he hok
    rw [he] at hok
    cases hok

/-- C3 witness: reply text with no brace pair raises the dedicated
unparseable-response error. -/
theorem parseClaudeResponse_error_paths_witness :
    parseClaudeResponse ("no braces here".data)
      = Except.error ClaudeParseError.couldNotParse :=
  parseClaudeResponse_error_paths.1 _ (by rfl)

/-! ## Claim theorem about audience selection (C8) -/

/-- C8 counterexample: the selector `toString` lies outside the closed
set general/sales/ops/cx, yet it does not select the general framing:
the bracket access finds the truthy `Object.prototype.toString` member
inherited by the object literal, so the `||` fallback never fires and
the guidance value is the inherited member, not the general text. -/
theorem audienceGuidance_prototype_cex :
    (("toString".data : List Char)
        ∉ [("general".data : List Char), "sales".data, "ops".data, "cx".data])
    ∧ audienceGuidance ("toString".data)
        = GuidanceValue.inheritedMember ("toString".data)
    ∧ audienceGuidance ("toString".data) ≠ audienceGuidance ("general".data) := by
  exact ⟨by decide, rfl, by decide⟩

/-- C8 (amended): any audience selector outside the closed set
general/sales/ops/cx that is not an `Object.prototype` member name
selects exactly the general framing text and yields the same prompt as
`general`; the absent selector (the `general` default parameter) does
too; and the lookup itself is total — it never fails for any selector
(a prototype member name still yields a value, the truthy inherited
member, whose host stringification is interpolated instead). -/
theorem audienceGuidance_fallback (audience : List Char)
    (h : audience ∉ [("general".data : List Char), "sales".data, "ops".data, "cx".data])
    (hp : audience ∉ objectPrototypeMembers) :
    audienceGuidance audience = audienceGuidance ("general".data)
    ∧ audienceGuidance audience
        = GuidanceValue.text ("Write for a general business audience.".data)
    ∧ (∀ hostStr commits, buildPrompt hostStr commits audience
        = buildPrompt hostStr commits ("general".data))
    ∧ (∀ hostStr commits, buildPrompt hostStr commits defaultAudience
        = buildPrompt hostStr commits ("general".data))
    ∧ (∀ a : List Char, ∃ v, audienceGuidance a = v) := by
  have hget : recordGet AUDIENCE_PROMPTS audience = none := by
    rw [recordGet, List.find?_eq_none.mpr]
    · rfl
    · intro kv hkv
      simp only [AUDIENCE_PROMPTS, List.mem_cons, List.not_mem_nil, or_false] at hkv
      rcases hkv with rfl | rfl | rfl | rfl <;>
        · simp only [decide_eq_true_eq]
          intro heq
          exact h (by rw [← heq]; simp)
  have hguid : audienceGuidance audience
      = GuidanceValue.text ("Write for a general business audience.".data) := by
    rw [audienceGuidance, hget, if_neg hp]
    rfl
  refine ⟨hguid.trans rfl, hguid, ?_, fun hostStr commits => rfl, fun a => ⟨_, rfl⟩⟩
  intro hostStr commits
  rw [buildPrompt, buildPrompt, hguid]
  rfl

/-- C8 witness: the unrecognized, non-prototype selector `marketing`
behaves exactly like `general`. -/
theorem audienceGuidance_fallback_witness :
    audienceGuidance ("marketing".data) = audienceGuidance ("general".data)
    ∧ audienceGuidance ("marketing".data)
        = GuidanceValue.text ("Write for a general business audience.".data)
    ∧ (∀ hostStr commits, buildPrompt hostStr commits ("marketing".data)
        = buildPrompt hostStr commits ("general".data))
    ∧ (∀ hostStr commits, buildPrompt hostStr commits defaultAudience
        = buildPrompt hostStr commits ("general".data))
    ∧ (∀ a : List Char, ∃ v, audienceGuidance a = v) :=
  audienceGuidance_fallback ("marketing".data) (by decide) (by decide)

/-! ## Claim theorems about parseGitLog (C1, C4, C6, C9) -/

theorem parseGitLog_interc_eq (csep fsep : List Char) (hcs : csep ≠ [])
    (chunks : List (List Char)) (hall : ∀ c ∈ chunks, noEarly csep c) :
    parseGitLog (interc csep chunks) csep fsep
      = (chunks.filter (fun c => !(jsTrim c).isEmpty)).filterMap (parseChunk fsep) := by
  cases chunks with
  | nil =>
    rw [parseGitLog]
    cases csep with
    | nil => exact absurd rfl hcs
    | cons a cs =>
      show ((splitOnAux a cs (interc (a :: cs) [])).filter _).filterMap _ = _
      rw [show interc (a :: cs) ([] : List (List Char)) = [] from rfl, splitOnAux]
      rfl
  | cons c0 cs0 =>
    rw [parseGitLog, jsSplit_interc csep hcs _ (by simp) hall]

theorem parseGitLog_interc_trailing_eq (csep fsep : List Char) (hcs : csep ≠ [])
    (chunks : List (List Char)) (hall : ∀ c ∈ chunks, noEarly csep c) :
    parseGitLog (interc csep chunks ++ csep) csep fsep
      = (chunks.filter (fun c => !(jsTrim c).isEmpty)).filterMap (parseChunk fsep) := by
  cases chunks with
  | nil =>
    rw [parseGitLog]
    cases csep with
    | nil => exact absurd rfl hcs
    | cons a cs =>
      show ((splitOnAux a cs (interc (a :: cs) [] ++ (a :: cs))).filter _).filterMap _ = _
      rw [show interc (a :: cs) ([] : List (List Char)) ++ (a :: cs) = (a :: cs) ++ []
          from by simp [interc], splitOnAux_sep a cs [], splitOnAux]
      rfl
  | cons c0 cs0 =>
    rw [parseGitLog, jsSplit_interc_trailing csep hcs _ (by simp) hall,
      List.filter_append]
    rw [show List.filter (fun c => !(jsTrim c).isEmpty) [([] : List Char)] = []
        from rfl, List.append_nil]

/-- C1: on a well-formed blob of records joined by the separators
(optionally with a trailing commit separator), `parseGitLog` returns
exactly one record per input record, in input order, with the four
header fields trimmed and non-empty and the body absent or a non-empty
trimmed string; the trailing separator contributes no extra record. -/
theorem parseGitLog_wellformed
    (csep fsep : List Char) (records : List (List (List Char))) (trailing : Bool)
    (hcs : csep ≠ []) (hfs : fsep ≠ [])
    (hlen : ∀ ps ∈ records, 4 ≤ ps.length)
    (hparts : ∀ ps ∈ records, ∀ p ∈ ps, noEarly fsep p)
    (hfields : ∀ ps ∈ records, ∀ p ∈ ps.take 4, jsTrim p ≠ [])
    (hchunks : ∀ ps ∈ records, noEarly csep (interc fsep ps)) :
    parseGitLog (interc csep (records.map (interc fsep))
        ++ (if trailing then csep else [])) csep fsep
      = records.map (mkRecord fsep)
    ∧ ∀ r ∈ records.map (mkRecord fsep),
        r.hash ≠ [] ∧ r.date ≠ [] ∧ r.author ≠ [] ∧ r.message ≠ [] ∧
        ∀ b, r.body = some b → b ≠ [] := by
  have hall : ∀ c ∈ records.map (interc fsep), noEarly csep c := by
    intro c hc
    obtain ⟨ps, hps, rfl⟩ := List.mem_map.mp hc
    exact hchunks ps hps
  constructor
  · have hmain : parseGitLog (interc csep (records.map (interc fsep))
        ++ (if trailing then csep else [])) csep fsep
        = ((records.map (interc fsep)).filter
            (fun c => !(jsTrim c).isEmpty)).filterMap (parseChunk fsep) := by
      cases trailing with
      | false =>
        rw [if_neg Bool.false_ne_true, List.append_nil]
        exact parseGitLog_interc_eq csep fsep hcs _ hall
      | true =>
        rw [if_pos rfl]
        exact parseGitLog_interc_trailing_eq csep fsep hcs _ hall
    rw [hmain, filter_keeps_chunks fsep records hlen hfields,
      filterMap_parseChunk fsep hfs records hlen hparts]
  · intro r hr
    obtain ⟨ps, hps, rfl⟩ := List.mem_map.mp hr
    obtain ⟨p0, p1, p2, p3, rest, rfl⟩ := exists_four_parts ps (hlen ps hps)
    have h0 := hfields _ hps p0 (by simp)
    have h1 := hfields _ hps p1 (by simp)
    have h2 := hfields _ hps p2 (by simp)
    have h3 := hfields _ hps p3 (by simp)
    refine ⟨by simpa [mkRecord] using h0, by simpa [mkRecord] using h1,
      by simpa [mkRecord] using h2, by simpa [mkRecord] using h3, ?_⟩
    intro b hb
    simp only [mkRecord] at hb
    by_cases hbody : jsTrim (interc fsep (List.drop 4 (p0 :: p1 :: p2 :: p3 :: rest))) = []
    · rw [if_pos hbody] at hb
      cases hb
    · rw [if_neg hbody] at hb
      cases hb
      exact hbody

/-- C1 witness: a two-record blob with a trailing commit separator. -/
theorem parseGitLog_wellformed_witness :
    parseGitLog (interc ("@@".data)
        (([["h1".data, "2024-01-05".data, "alice".data, "first fix".data],
           ["h2".data, "2024-01-06".data, "bob".data, "second".data, " body line".data]]
          : List (List (List Char))).map (interc ("%%".data)))
        ++ (if true then "@@".data else [])) ("@@".data) ("%%".data)
      = ([["h1".data, "2024-01-05".data, "alice".data, "first fix".data],
          ["h2".data, "2024-01-06".data, "bob".data, "second".data, " body line".data]]
         : List (List (List Char))).map (mkRecord ("%%".data))
    ∧ ∀ r ∈ ([["h1".data, "2024-01-05".data, "alice".data, "first fix".data],
          ["h2".data, "2024-01-06".data, "bob".data, "second".data, " body line".data]]
         : List (List (List Char))).map (mkRecord ("%%".data)),
        r.hash ≠ [] ∧ r.date ≠ [] ∧ r.author ≠ [] ∧ r.message ≠ [] ∧
        ∀ b, r.body = some b → b ≠ [] :=
  parseGitLog_wellformed ("@@".data) ("%%".data)
    [["h1".data, "2024-01-05".data, "alice".data, "first fix".data],
     ["h2".data, "2024-01-06".data, "bob".data, "second".data, " body line".data]]
    true (by decide) (by decide) (by decide) (by decide) (by decide) (by decide)

/-- C4: a chunk whose body legally contains the field separator as
literal text round-trips: the parts from the fifth onward are rejoined
with the field separator, so the body comes back intact. -/
theorem parseGitLog_body_roundtrip (csep fsep h d a m b : List Char)
    (hcs : csep ≠ []) (hfs : fsep ≠ [])
    (hh : noEarly fsep h) (hd : noEarly fsep d) (ha : noEarly fsep a)
    (hm : noEarly fsep m)
    (hchunk : noEarly csep (h ++ fsep ++ d ++ fsep ++ a ++ fsep ++ m ++ fsep ++ b))
    (hhne : jsTrim h ≠ []) (hb : jsTrim b = b) (hbne : b ≠ []) :
    parseGitLog (h ++ fsep ++ d ++ fsep ++ a ++ fsep ++ m ++ fsep ++ b) csep fsep
      = [{ hash := jsTrim h, date := jsTrim d, author := jsTrim a,
           message := jsTrim m, body := some b }] := by
  have hpc : parseChunk fsep (h ++ fsep ++ d ++ fsep ++ a ++ fsep ++ m ++ fsep ++ b)
      = some { hash := jsTrim h, date := jsTrim d, author := jsTrim a,
               message := jsTrim m, body := some b } := by
    have regroup : h ++ fsep ++ d ++ fsep ++ a ++ fsep ++ m ++ fsep ++ b
        = h ++ fsep ++ (d ++ fsep ++ (a ++ fsep ++ (m ++ fsep ++ b))) := by
      simp only [List.append_assoc]
    rw [parseChunk, regroup, jsSplit_clean fsep hfs h _ hh,
      jsSplit_clean fsep hfs d _ hd, jsSplit_clean fsep hfs a _ ha,
      jsSplit_clean fsep hfs m _ hm]
    simp only [interc_jsSplit fsep hfs, hb, if_neg hbne]
  have hne2 : jsTrim (h ++ fsep ++ d ++ fsep ++ a ++ fsep ++ m ++ fsep ++ b) ≠ [] := by
    have regroup : h ++ fsep ++ d ++ fsep ++ a ++ fsep ++ m ++ fsep ++ b
        = h ++ (fsep ++ (d ++ (fsep ++ (a ++ (fsep ++ (m ++ (fsep ++ b))))))) := by
      simp only [List.append_assoc]
    rw [regroup]
    exact jsTrim_append_ne_nil h _ hhne
  rw [parseGitLog, jsSplit_no_occ csep hcs _ (noEarly_no_occ csep hcs _ hchunk),
    show List.filter (fun c => !(jsTrim c).isEmpty)
        [h ++ fsep ++ d ++ fsep ++ a ++ fsep ++ m ++ fsep ++ b]
      = [h ++ fsep ++ d ++ fsep ++ a ++ fsep ++ m ++ fsep ++ b] from by
      rw [List.filter_cons, if_pos (keep_of_ne_nil _ hne2)]
      rfl]
  rw [List.filterMap_cons, hpc]
  rfl

/-- C4 witness: the spec's example chunk with `§` as field separator. -/
theorem parseGitLog_body_roundtrip_witness :
    parseGitLog ("h1".data ++ "§".data ++ "d1".data ++ "§".data ++ "a1".data
        ++ "§".data ++ "msg1".data ++ "§".data ++ "line-one§line-two".data)
        (";;".data) ("§".data)
      = [{ hash := jsTrim ("h1".data), date := jsTrim ("d1".data),
           author := jsTrim ("a1".data), message := jsTrim ("msg1".data),
           body := some ("line-one§line-two".data) }] :=
  parseGitLog_body_roundtrip (";;".data) ("§".data) ("h1".data) ("d1".data)
    ("a1".data) ("msg1".data) ("line-one§line-two".data)
    (by decide) (by decide) (by decide) (by decide) (by decide) (by decide)
    (by decide) (by decide) (by decide) (by decide)

/-- C6: a chunk that splits into fewer than four parts on the field
separator is silently discarded: it contributes no record (`parseChunk`
yields nothing) and the blob parses exactly as if the chunk were not
there; no error is raised. -/
theorem parseGitLog_discards_short (csep fsep : List Char)
    (pre post : List (List Char)) (bad : List Char)
    (hcs : csep ≠ [])
    (hall : ∀ c ∈ pre ++ bad :: post, noEarly csep c)
    (hbad : (jsSplit fsep bad).length < 4) :
    parseChunk fsep bad = none ∧
    parseGitLog (interc csep (pre ++ bad :: post)) csep fsep
      = parseGitLog (interc csep (pre ++ post)) csep fsep := by
  have hnone : parseChunk fsep bad = none := by
    rw [parseChunk]
    rcases hsp : jsSplit fsep bad with _ | ⟨x1, _ | ⟨x2, _ | ⟨x3, _ | ⟨x4, r4⟩⟩⟩⟩
    · rfl
    · rfl
    · rfl
    · rfl
    · exfalso
      rw [hsp] at hbad
      simp only [List.length_cons] at hbad
      omega
  refine ⟨hnone, ?_⟩
  have hall2 : ∀ c ∈ pre ++ post, noEarly csep c := by
    intro c hc
    apply hall c
    rcases List.mem_append.mp hc with hx | hx
    · exact List.mem_append.mpr (Or.inl hx)
    · exact List.mem_append.mpr (Or.inr (List.mem_cons_of_mem _ hx))
  rw [parseGitLog_interc_eq csep fsep hcs _ hall,
    parseGitLog_interc_eq csep fsep hcs _ hall2,
    List.filter_append, List.filter_append, List.filter_cons]
  by_cases hkeep : (!(jsTrim bad).isEmpty) = true
  · rw [if_pos hkeep]
    simp only [List.filterMap_append, List.filterMap_cons, hnone]
  · rw [if_neg hkeep]

/-- C6 witness: a two-field chunk between a valid record and the end of
the blob is dropped without affecting the rest. -/
theorem parseGitLog_discards_short_witness :
    parseChunk ("%%".data) ("h9%1".data) = none ∧
    parseGitLog (interc ("@@".data) (["h1%%d1%%a1%%m1".data] ++ "h9%1".data :: []))
        ("@@".data) ("%%".data)
      = parseGitLog (interc ("@@".data) (["h1%%d1%%a1%%m1".data] ++ []))
        ("@@".data) ("%%".data) :=
  parseGitLog_discards_short ("@@".data) ("%%".data) ["h1%%d1%%a1%%m1".data] []
    ("h9%1".data) (by decide) (by decide)
    (by rw [jsSplit_no_occ ("%%".data) (by decide) ("h9%1".data) (by decide)]; decide)

/-- C9: `parseGitLog` is total: every input string and separator pair
(including the empty blob and a blob equal to a separator) yields a list
of records without any error. -/
theorem parseGitLog_total :
    (∀ raw csep fsep : List Char, ∃ out : List CommitInfo, parseGitLog raw csep fsep = out)
    ∧ (∀ csep fsep : List Char, parseGitLog [] csep fsep = [])
    ∧ (∀ csep fsep : List Char, parseGitLog csep csep fsep = []) := by
  refine ⟨fun raw csep fsep => ⟨_, rfl⟩, ?_, ?_⟩
  · intro csep fsep
    rw [parseGitLog]
    cases csep with
    | nil => rfl
    | cons a cs =>
      show ((splitOnAux a cs []).filter _).filterMap _ = []
      rw [splitOnAux]
      rfl
  · intro csep fsep
    rw [parseGitLog]
    cases csep with
    | nil => rfl
    | cons a cs =>
      have h1 : splitOnAux a cs (a :: cs) = [[], []] := by
        have h := splitOnAux_sep a cs []
        rw [List.append_nil] at h
        rw [h, splitOnAux]
      show ((splitOnAux a cs (a :: cs)).filter _).filterMap _ = []
      rw [h1]
      rfl

end Changelog
